import Mathlib

/-!
Verification of the binary sourcing core of `pop-cli`
(`crates/pop-common/src/sourcing/binary.rs`).

Rust strings are embedded as lists of characters (`Str`), so that the
byte-wise lexicographic order of `str::cmp` becomes the code-point
lexicographic order on `List Char` (UTF-8 preserves code-point order).
Machine integers (`u32`) are embedded as `Nat` with the explicit
`< 2^32` bound where Rust's parser would overflow. Filesystem queries
are embedded as an explicit predicate `disk : Str → Bool` over path
strings, and `PathBuf::join` as `pathJoin`.
-/

/-- A Rust string, embedded as its list of characters. -/
abbrev Str := List Char

/-- `Str.ofString s` is the character list of a string literal. -/
def Str.ofString (s : String) : Str := s.toList

/-- Strips the optional leading `+` sign accepted by Rust's integer
parser. -/
def stripPlus : Str → Str
  | c :: rest => if c = '+' then rest else c :: rest
  | [] => []

/-- Rust `str::parse::<u32>`: an optional leading `+` sign, then one or
more ASCII digits, with the resulting value within `u32` range;
anything else fails. -/
def parseU32 (s : Str) : Option Nat :=
  if stripPlus s = [] then none
  else if (stripPlus s).all (fun c => c.isDigit) then
    if (stripPlus s).foldl (fun acc c => acc * 10 + (c.toNat - 48)) 0 < 4294967296 then
      some ((stripPlus s).foldl (fun acc c => acc * 10 + (c.toNat - 48)) 0)
    else none
  else none

/-- Rust `str::split('.')`: splits on every dot, keeping empty segments;
the empty string yields one empty segment. -/
def splitOnDot : Str → List Str
  | [] => [[]]
  | c :: cs =>
    if c = '.' then [] :: splitOnDot cs
    else
      match splitOnDot cs with
      | [] => [[c]]
      | t :: ts => (c :: t) :: ts

/-- Rust `str::cmp`: lexicographic comparison (byte order coincides with
code-point order for UTF-8). -/
def strCmp : Str → Str → Ordering
  | [], [] => .eq
  | [], _ :: _ => .lt
  | _ :: _, [] => .gt
  | a :: as, b :: bs =>
    match compare a.toNat b.toNat with
    | .eq => strCmp as bs
    | o => o

/-- Rust `Option::<u32>::cmp`: `None` sorts below `Some`. -/
def optCmp : Option Nat → Option Nat → Ordering
  | none, none => .eq
  | none, some _ => .lt
  | some _, none => .gt
  | some a, some b => compare a b

/-- The calendar-style prefix token `polkadot-stable`. -/
def polkadotStable : Str :=
  ['p', 'o', 'l', 'k', 'a', 'd', 'o', 't', '-', 's', 't', 'a', 'b', 'l', 'e']

/-- The version parser inside `Binary::compare_versions` (binary.rs
lines 124-143): a string starting with `v` takes its first two
dot-separated segments as `(major, minor)`; a string starting with
`polkadot-stable` followed by an integer `N` yields `(N / 100, N % 100)`;
anything else yields `(none, none)`. -/
def parse_version (v : Str) : Option Nat × Option Nat :=
  if ['v'].isPrefixOf v then
    let parts := splitOnDot (v.drop 1)
    (((parts.get? 0).bind parseU32), ((parts.get? 1).bind parseU32))
  else if polkadotStable.isPrefixOf v then
    match parseU32 (v.drop polkadotStable.length) with
    | some n => (some (n / 100), some (n % 100))
    | none => (none, none)
  else (none, none)

/-- `Binary::compare_versions` (binary.rs lines 123-155): compare the
derived majors when both are present and unequal, then the minors when
the majors agree, a present major beats an absent one, and two absent
majors fall back to lexicographic string comparison. -/
def compare_versions (a b : Str) : Ordering :=
  match (parse_version a).1, (parse_version b).1 with
  | some x, some y =>
    if x ≠ y then compare x y else optCmp (parse_version a).2 (parse_version b).2
  | some _, none => .gt
  | none, some _ => .lt
  | none, none => strCmp a b

/-- `PathBuf::join` of a cache directory and a file name. -/
def pathJoin (cache s : Str) : Str := cache ++ '/' :: s

/-- The fields of `GitHub::ReleaseArchive` (constructed in binary.rs,
e.g. lines 413-421). -/
structure ReleaseArchiveData where
  owner : Str
  repository : Str
  tag : Option Str
  tag_format : Option Str
  archive : Str
  contents : List (Str × Option Str)
  latest : Option Str
deriving DecidableEq

/-- The fields of `GitHub::SourceCodeArchive` (constructed in binary.rs,
e.g. lines 455-462). -/
structure SourceCodeArchiveData where
  owner : Str
  repository : Str
  reference : Option Str
  manifest : Option Str
  package : Str
  artifacts : List Str
deriving DecidableEq

/-- The `GitHub` origin sub-enum, as matched and constructed in
binary.rs. -/
inductive GitHubSource where
  | ReleaseArchive (data : ReleaseArchiveData)
  | SourceCodeArchive (data : SourceCodeArchiveData)
deriving DecidableEq

/-- The `Source` origin descriptor enum, with the variants and fields as
matched and constructed throughout binary.rs (lines 76-83, 204-214 and
the test constructions). -/
inductive Source where
  | Archive (url : Str) (contents : List Str)
  | Git (url : Str) (reference : Option Str) (manifest : Option Str)
      (package : Str) (artifacts : List Str)
  | GitHub (source : GitHubSource)
  | Url (url : Str) (name : Str)
deriving DecidableEq

/-- The `Binary` enum (binary.rs lines 16-36). -/
inductive Binary where
  | Local (name : Str) (path : Str) (manifest : Option Str)
  | Source (name : Str) (source : Source) (cache : Str)
deriving DecidableEq

/-- Alias for the origin descriptor type, usable inside the `Binary`
namespace where the bare name `Source` resolves to the constructor
`Binary.Source`. -/
abbrev OriginDescriptor := Source

/-- `Binary::latest` (binary.rs lines 45-55). -/
def Binary.latest : Binary → Option Str
  | .Source _ (.GitHub (.ReleaseArchive d)) _ => d.latest
  | _ => none

/-- `Binary::local` (binary.rs lines 58-60). -/
def Binary.isLocal : Binary → Bool
  | .Local _ _ _ => true
  | .Source _ _ _ => false

/-- `Binary::name` (binary.rs lines 63-68). -/
def Binary.name : Binary → Str
  | .Local name _ _ => name
  | .Source name _ _ => name

/-- The version reference computed inside `Binary::path`
(binary.rs lines 76-83): the Git `reference`, the `ReleaseArchive`
`tag`, the `SourceCodeArchive` `reference`, and nothing for `Archive`
and `Url`. -/
def Source.versionReference : Source → Option Str
  | .Git _ reference _ _ _ => reference
  | .GitHub (.ReleaseArchive d) => d.tag
  | .GitHub (.SourceCodeArchive d) => d.reference
  | .Archive _ _ => none
  | .Url _ _ => none

/-- `Binary::path` (binary.rs lines 71-87). -/
def Binary.path : Binary → Str
  | .Local _ path _ => path
  | .Source name source cache =>
    match source.versionReference with
    | none => pathJoin cache name
    | some v => pathJoin cache (name ++ '-' :: v)

/-- `Binary::stale` (binary.rs lines 184-190). -/
def Binary.stale : Binary → Bool
  | .Source _ (.GitHub (.ReleaseArchive d)) _ =>
    match d.latest with
    | none => false
    | some l => decide (d.tag ≠ some l)
  | _ => false

/-- `Binary::use_latest` (binary.rs lines 193-201): the match arm
requires a `ReleaseArchive` with `latest` present and overwrites `tag`
with its value; every other binary is left untouched. -/
def Binary.use_latest : Binary → Binary
  | .Source name (.GitHub (.ReleaseArchive d)) cache =>
    match d.latest with
    | some l =>
      .Source name (.GitHub (.ReleaseArchive { d with tag := some l })) cache
    | none => .Source name (.GitHub (.ReleaseArchive d)) cache
  | b => b

/-- `Binary::version` (binary.rs lines 204-217). -/
def Binary.version : Binary → Option Str
  | .Local _ _ _ => none
  | .Source _ source _ =>
    match source with
    | .Git _ reference _ _ _ => reference
    | .GitHub (.ReleaseArchive d) => d.tag
    | .GitHub (.SourceCodeArchive d) => d.reference
    | .Archive _ _ => none
    | .Url _ _ => none

/-- Modelled from the spec: the error taxonomy of §7. Only the
`MissingBinary` constructor is produced by code under scrutiny
(binary.rs line 172); collaborator failures are opaque values the core
propagates verbatim. The `Error` enum itself lives outside binary.rs. -/
inductive Error where
  | MissingBinary (message : Str)
  | Collaborator (message : Str)
deriving DecidableEq

/-- Rust `Debug` formatting of a path (`{path:?}`): the path quoted,
with backslashes and double quotes escaped. -/
def debugQuote (p : Str) : Str :=
  '"' :: (p.flatMap (fun c => if c = '"' ∨ c = '\\' then ['\\', c] else [c])) ++ ['"']

/-- The message of the `MissingBinary` error raised by `Binary::source`
for a local binary without a manifest (binary.rs lines 172-174):
`The {path:?} binary cannot be sourced automatically.` -/
def missingBinaryMessage (path : Str) : Str :=
  Str.ofString "The " ++ debugQuote path ++
    Str.ofString " binary cannot be sourced automatically."

/-- `Binary::source` (binary.rs lines 164-181). The two delegated
branches call collaborators that live outside binary.rs
(`from_local_package` and `Source::source`); they are taken as explicit
function arguments over an abstract filesystem state `σ` and an abstract
status sink `St`, so only the branch structure and the
`Local`-without-manifest error, which are code of binary.rs, are fixed
here. -/
def Binary.source {σ St : Type}
    (from_local_package : Str → Str → Bool → St → Bool → σ → Except Error Unit × σ)
    (source_source : OriginDescriptor → Str → Bool → St → Bool → σ → Except Error Unit × σ)
    (b : Binary) (release : Bool) (status : St) (verbose : Bool) (fs : σ) :
    Except Error Unit × σ :=
  match b with
  | .Local name path manifest =>
    match manifest with
    | none => (.error (.MissingBinary (missingBinaryMessage path)), fs)
    | some manifest => from_local_package manifest name release status verbose fs
  | .Source _ source cache => source_source source cache release status verbose fs

/-- The sort comparator of `Binary::resolve_version` (binary.rs line
109): Rust's `sort_by(|a, b| compare_versions(b, a))` orders the list
ascending under `compare_versions(b, a)`, i.e. descending under
`compare_versions`; an element may stay before another exactly when the
comparator does not answer `Greater`. -/
def versionLe (a b : Str) : Bool := !(compare_versions b a == .gt)

/-- `Binary::resolve_version` (binary.rs lines 98-121). The filesystem
existence check `path.exists()` is embedded as the predicate
`disk : Str → Bool` over path strings; Rust's stable `sort_by` is
embedded as the stable `List.mergeSort` under `versionLe`. -/
def resolve_version (name : Str) (specified : Option Str)
    (available : List Str) (cache : Str) (disk : Str → Bool) : Option Str :=
  match specified with
  | some version => some version
  | none =>
    match (available.mergeSort versionLe).find?
        (fun version => disk (pathJoin cache (name ++ '-' :: version))) with
    | some version => some version
    | none => (available.mergeSort versionLe).head?

/-- Erases the `tag` of a `ReleaseArchive` descriptor, leaving every
other component of a `Binary` in place; used to state that
`use_latest` touches nothing but that `tag`. -/
def clearReleaseTag : Binary → Binary
  | .Source name (.GitHub (.ReleaseArchive d)) cache =>
    .Source name (.GitHub (.ReleaseArchive { d with tag := none })) cache
  | b => b

/-! ### Order-theoretic facts about `compare_versions` -/

theorem natCompare_ge_iff {a b : Nat} : compare a b ≠ .lt ↔ b ≤ a := by
  rw [ne_eq, Nat.compare_eq_lt]
  omega

theorem optCmp_refl (a : Option Nat) : optCmp a a = .eq := by
  cases a with
  | none => rfl
  | some x => simpa [optCmp] using Nat.compare_eq_eq.mpr rfl

theorem optCmp_swap (a b : Option Nat) : optCmp a b = (optCmp b a).swap := by
  cases a <;> cases b
  · rfl
  · rfl
  · rfl
  · exact (Nat.compare_swap _ _).symm

theorem optCmp_ge_trans {a b c : Option Nat} (h1 : optCmp a b ≠ .lt)
    (h2 : optCmp b c ≠ .lt) : optCmp a c ≠ .lt := by
  cases a <;> cases b <;> cases c <;> simp_all [optCmp]
  exact natCompare_ge_iff.mpr (Nat.le_trans (natCompare_ge_iff.mp h2) (natCompare_ge_iff.mp h1))

theorem strCmp_refl : ∀ a : Str, strCmp a a = .eq
  | [] => rfl
  | c :: cs => by
    have h : compare c.toNat c.toNat = .eq := Nat.compare_eq_eq.mpr rfl
    simp [strCmp, h, strCmp_refl cs]

theorem strCmp_swap : ∀ a b : Str, strCmp a b = (strCmp b a).swap
  | [], [] => rfl
  | [], _ :: _ => rfl
  | _ :: _, [] => rfl
  | a :: as, b :: bs => by
    show (match compare a.toNat b.toNat with | .eq => strCmp as bs | o => o)
        = (match compare b.toNat a.toNat with | .eq => strCmp bs as | o => o).swap
    rw [← Nat.compare_swap b.toNat a.toNat]
    cases compare b.toNat a.toNat with
    | eq => exact strCmp_swap as bs
    | lt => rfl
    | gt => rfl

theorem strCmp_ge_trans : ∀ a b c : Str,
    strCmp a b ≠ .lt → strCmp b c ≠ .lt → strCmp a c ≠ .lt
  | [], [], c => fun _ h2 => h2
  | [], _ :: _, _ => fun h1 _ => absurd rfl h1
  | _ :: _, [], [] => fun _ _ => by simp [strCmp]
  | _ :: _, [], _ :: _ => fun _ h2 => absurd rfl h2
  | _ :: _, _ :: _, [] => fun _ _ => by simp [strCmp]
  | a :: as, b :: bs, c :: cs => by
    intro h1 h2
    simp only [strCmp] at h1 h2 ⊢
    rcases hab : compare a.toNat b.toNat with _ | _ | _ <;> rw [hab] at h1 <;>
      rcases hbc : compare b.toNat c.toNat with _ | _ | _ <;> rw [hbc] at h2
    · exact absurd rfl h1
    · exact absurd rfl h1
    · exact absurd rfl h1
    · exact absurd rfl h2
    · have hac : compare a.toNat c.toNat = .eq := by
        rw [Nat.compare_eq_eq] at hab hbc ⊢
        omega
      rw [hac]
      exact strCmp_ge_trans as bs cs h1 h2
    · have hac : compare a.toNat c.toNat = .gt := by
        rw [Nat.compare_eq_eq] at hab
        rw [Nat.compare_eq_gt] at hbc ⊢
        omega
      simp [hac]
    · exact absurd rfl h2
    · have hac : compare a.toNat c.toNat = .gt := by
        rw [Nat.compare_eq_eq] at hbc
        rw [Nat.compare_eq_gt] at hab ⊢
        omega
      simp [hac]
    · have hac : compare a.toNat c.toNat = .gt := by
        rw [Nat.compare_eq_gt] at hab hbc ⊢
        omega
      simp [hac]

theorem compare_versions_refl (a : Str) : compare_versions a a = .eq := by
  unfold compare_versions
  cases h : (parse_version a).1 with
  | none =>
    exact strCmp_refl a
  | some x =>
    show (if x ≠ x then compare x x else _) = .eq
    rw [if_neg (fun hc => hc rfl)]
    exact optCmp_refl _

theorem compare_versions_swap (a b : Str) :
    compare_versions a b = (compare_versions b a).swap := by
  unfold compare_versions
  cases ha : (parse_version a).1 with
  | none =>
    cases hb : (parse_version b).1 with
    | none =>
      exact strCmp_swap a b
    | some y =>
      rfl
  | some x =>
    cases hb : (parse_version b).1 with
    | none =>
      rfl
    | some y =>
      show (if x ≠ y then compare x y else optCmp (parse_version a).2 (parse_version b).2)
          = (if y ≠ x then compare y x else optCmp (parse_version b).2 (parse_version a).2).swap
      by_cases hxy : x = y
      · subst hxy
        rw [if_neg (fun hc => hc rfl), if_neg (fun hc => hc rfl)]
        exact optCmp_swap _ _
      · rw [if_pos hxy, if_pos (Ne.symm hxy)]
        exact (Nat.compare_swap y x).symm

theorem pairCmp_ge_trans {x y z : Nat} {mx my mz : Option Nat}
    (h1 : (if x ≠ y then compare x y else optCmp mx my) ≠ .lt)
    (h2 : (if y ≠ z then compare y z else optCmp my mz) ≠ .lt) :
    (if x ≠ z then compare x z else optCmp mx mz) ≠ .lt := by
  by_cases hxy : x = y
  · subst hxy
    rw [if_neg (by simp)] at h1
    by_cases hxz : x = z
    · subst hxz
      rw [if_neg (by simp)] at h2 ⊢
      exact optCmp_ge_trans h1 h2
    · rw [if_pos hxz] at h2
      rw [if_pos hxz]
      exact h2
  · rw [if_pos hxy] at h1
    have hyx : y < x := Nat.lt_of_le_of_ne (natCompare_ge_iff.mp h1) (fun h => hxy h.symm)
    by_cases hyz : y = z
    · subst hyz
      rw [if_pos (by omega)]
      exact natCompare_ge_iff.mpr (by omega)
    · rw [if_pos hyz] at h2
      have hzy : z ≤ y := natCompare_ge_iff.mp h2
      rw [if_pos (by omega)]
      exact natCompare_ge_iff.mpr (by omega)

theorem compare_versions_ge_trans {a b c : Str}
    (h1 : compare_versions a b ≠ .lt) (h2 : compare_versions b c ≠ .lt) :
    compare_versions a c ≠ .lt := by
  unfold compare_versions at h1 h2 ⊢
  rcases ha : (parse_version a).1 with _ | x <;>
    rcases hb : (parse_version b).1 with _ | y <;>
    rcases hc : (parse_version c).1 with _ | z <;>
    rw [ha, hb] at h1 <;> rw [hb, hc] at h2
  · exact strCmp_ge_trans a b c h1 h2
  · exact absurd rfl h2
  · exact absurd rfl h1
  · exact absurd rfl h1
  · exact fun h => Ordering.noConfusion h
  · exact absurd rfl h2
  · exact fun h => Ordering.noConfusion h
  · exact pairCmp_ge_trans h1 h2


/-! ### The sort comparator as a total preorder, and list helpers -/

theorem versionLe_iff {a b : Str} : versionLe a b = true ↔ compare_versions a b ≠ .lt := by
  rw [compare_versions_swap a b]
  unfold versionLe
  cases compare_versions b a <;> decide

theorem versionLe_total (a b : Str) : (versionLe a b || versionLe b a) = true := by
  unfold versionLe
  rw [compare_versions_swap b a]
  cases compare_versions a b <;> rfl

theorem versionLe_trans (a b c : Str) (h1 : versionLe a b = true)
    (h2 : versionLe b c = true) : versionLe a c = true :=
  versionLe_iff.mpr
    (compare_versions_ge_trans (versionLe_iff.mp h1) (versionLe_iff.mp h2))

theorem find?_pairwise_min {α : Type} {R : α → α → Prop} {p : α → Bool}
    {l : List α} {r : α} (hp : l.Pairwise R) (hf : l.find? p = some r) :
    ∀ v ∈ l, p v = true → v = r ∨ R r v := by
  obtain ⟨hr, as, bs, rfl, hbefore⟩ := List.find?_eq_some.mp hf
  intro v hv hpv
  rw [List.pairwise_append] at hp
  obtain ⟨_, hcons, _⟩ := hp
  rcases List.mem_append.mp hv with hv | hv
  · have hcontra := hbefore v hv
    rw [hpv] at hcontra
    exact absurd hcontra (by decide)
  · rcases List.mem_cons.mp hv with rfl | hv
    · exact Or.inl rfl
    · exact Or.inr ((List.pairwise_cons.mp hcons).1 v hv)

theorem pairwise_head_max {α : Type} {R : α → α → Prop} {l : List α} {r : α} {t : List α}
    (hp : (r :: t).Pairwise R) (hl : l = r :: t) : ∀ v ∈ l, v = r ∨ R r v := by
  subst hl
  intro v hv
  rcases List.mem_cons.mp hv with rfl | hv
  · exact Or.inl rfl
  · exact Or.inr ((List.pairwise_cons.mp hp).1 v hv)

theorem parseU32_no_dot {a : Str} {n : Nat} (h : parseU32 a = some n) : '.' ∉ a := by
  intro hmem
  unfold parseU32 at h
  by_cases he : stripPlus a = []
  · rw [if_pos he] at h
    exact Option.noConfusion h
  · rw [if_neg he] at h
    by_cases hd : (stripPlus a).all (fun c => c.isDigit) = true
    · have hdig : ∀ c ∈ stripPlus a, c.isDigit = true := by
        intro c hc
        exact List.all_eq_true.mp hd c hc
      cases a with
      | nil => exact List.not_mem_nil '.' hmem
      | cons c rest =>
        by_cases hc : c = '+'
        · have hstrip : stripPlus (c :: rest) = rest := by
            show (if c = '+' then rest else c :: rest) = rest
            rw [if_pos hc]
          rw [hstrip] at hdig
          rcases List.mem_cons.mp hmem with rfl | hmem2
          · exact absurd hc (by decide)
          · exact absurd (hdig '.' hmem2) (by decide)
        · have hstrip : stripPlus (c :: rest) = c :: rest := by
            show (if c = '+' then rest else c :: rest) = c :: rest
            rw [if_neg hc]
          rw [hstrip] at hdig
          exact absurd (hdig '.' hmem) (by decide)
    · rw [if_neg hd] at h
      exact Option.noConfusion h

theorem splitOnDot_append_dot {a : Str} (r : Str) (ha : '.' ∉ a) :
    splitOnDot (a ++ '.' :: r) = a :: splitOnDot r := by
  induction a with
  | nil => simp [splitOnDot]
  | cons c cs ih =>
    have hc : c ≠ '.' := fun h => ha (h ▸ List.mem_cons_self c cs)
    have ha2 : '.' ∉ cs := fun h => ha (List.mem_cons_of_mem c h)
    rw [List.cons_append]
    show (if c = '.' then [] :: splitOnDot (cs ++ '.' :: r)
      else match splitOnDot (cs ++ '.' :: r) with
        | [] => [[c]]
        | t :: ts => (c :: t) :: ts) = (c :: cs) :: splitOnDot r
    rw [if_neg hc, ih ha2]

theorem parse_version_vab (a b x : Str) (ha : '.' ∉ a) (hb : '.' ∉ b) :
    parse_version ('v' :: (a ++ '.' :: (b ++ '.' :: x))) = (parseU32 a, parseU32 b) := by
  have h1 : (['v'].isPrefixOf ('v' :: (a ++ '.' :: (b ++ '.' :: x)))) = true := by
    simp [List.isPrefixOf]
  unfold parse_version
  rw [if_pos h1]
  show (((splitOnDot (a ++ '.' :: (b ++ '.' :: x))).get? 0).bind parseU32,
    ((splitOnDot (a ++ '.' :: (b ++ '.' :: x))).get? 1).bind parseU32) = (parseU32 a, parseU32 b)
  rw [splitOnDot_append_dot (b ++ '.' :: x) ha, splitOnDot_append_dot x hb]
  rfl

/-! ### Claim theorems -/

/-- C4: `path()` is a pure function of the binary value: the stored path
verbatim for `Local`; for a sourced binary, `cache.join(name)` when the
descriptor's version reference (Git reference, ReleaseArchive tag,
SourceCodeArchive reference) is absent — always for the unversioned
`Archive` and `Url` kinds — and `cache.join("{name}-{version}")` when it
is present. Purity and determinism hold by construction: `Binary.path`
is a total function of the value with no state argument. -/
theorem path_characterization :
    (∀ name p m, Binary.path (.Local name p m) = p) ∧
    (∀ name url contents cache,
      Binary.path (.Source name (.Archive url contents) cache) = pathJoin cache name) ∧
    (∀ name url bn cache,
      Binary.path (.Source name (.Url url bn) cache) = pathJoin cache name) ∧
    (∀ name url mf pkg arts cache,
      Binary.path (.Source name (.Git url none mf pkg arts) cache) = pathJoin cache name) ∧
    (∀ name url v mf pkg arts cache,
      Binary.path (.Source name (.Git url (some v) mf pkg arts) cache)
        = pathJoin cache (name ++ '-' :: v)) ∧
    (∀ name d cache, d.tag = none →
      Binary.path (.Source name (.GitHub (.ReleaseArchive d)) cache) = pathJoin cache name) ∧
    (∀ name d cache v, d.tag = some v →
      Binary.path (.Source name (.GitHub (.ReleaseArchive d)) cache)
        = pathJoin cache (name ++ '-' :: v)) ∧
    (∀ name d cache, d.reference = none →
      Binary.path (.Source name (.GitHub (.SourceCodeArchive d)) cache)
        = pathJoin cache name) ∧
    (∀ name d cache v, d.reference = some v →
      Binary.path (.Source name (.GitHub (.SourceCodeArchive d)) cache)
        = pathJoin cache (name ++ '-' :: v)) := by
  refine ⟨fun _ _ _ => rfl, fun _ _ _ _ => rfl, fun _ _ _ _ => rfl,
    fun _ _ _ _ _ _ => rfl, fun _ _ _ _ _ _ _ => rfl, ?_, ?_, ?_, ?_⟩
  · intro name d cache h
    simp [Binary.path, Source.versionReference, h]
  · intro name d cache v h
    simp [Binary.path, Source.versionReference, h]
  · intro name d cache h
    simp [Binary.path, Source.versionReference, h]
  · intro name d cache v h
    simp [Binary.path, Source.versionReference, h]

/-- Witness for `path_characterization` at a concrete release-archive
descriptor without a tag. -/
theorem path_characterization_witness :
    Binary.path (.Source (Str.ofString "polkadot")
        (.GitHub (.ReleaseArchive ⟨[], [], none, none, [], [], none⟩))
        (Str.ofString "cache"))
      = pathJoin (Str.ofString "cache") (Str.ofString "polkadot") :=
  path_characterization.2.2.2.2.2.1 (Str.ofString "polkadot")
    ⟨[], [], none, none, [], [], none⟩ (Str.ofString "cache") rfl

/-- C8: `version()` is `none` for `Local` and the descriptor's
version-affecting field for a sourced binary (Git reference,
ReleaseArchive tag, SourceCodeArchive reference, `none` for `Archive`
and `Url`); `latest()` is the ReleaseArchive `latest` field verbatim and
`none` for every other binary. -/
theorem version_latest_characterization :
    (∀ name p m, Binary.version (.Local name p m) = none) ∧
    (∀ name url r mf pkg arts cache,
      Binary.version (.Source name (.Git url r mf pkg arts) cache) = r) ∧
    (∀ name d cache,
      Binary.version (.Source name (.GitHub (.ReleaseArchive d)) cache) = d.tag) ∧
    (∀ name d cache,
      Binary.version (.Source name (.GitHub (.SourceCodeArchive d)) cache)
        = d.reference) ∧
    (∀ name url contents cache,
      Binary.version (.Source name (.Archive url contents) cache) = none) ∧
    (∀ name url bn cache, Binary.version (.Source name (.Url url bn) cache) = none) ∧
    (∀ name d cache,
      Binary.latest (.Source name (.GitHub (.ReleaseArchive d)) cache) = d.latest) ∧
    (∀ b : Binary,
      (∀ name d cache, b ≠ .Source name (.GitHub (.ReleaseArchive d)) cache) →
        b.latest = none) := by
  refine ⟨fun _ _ _ => rfl, fun _ _ _ _ _ _ _ => rfl, fun _ _ _ => rfl,
    fun _ _ _ => rfl, fun _ _ _ _ => rfl, fun _ _ _ _ => rfl, fun _ _ _ => rfl, ?_⟩
  intro b hb
  cases b with
  | Local name p m => rfl
  | Source name src cache =>
    cases src with
    | Archive url contents => rfl
    | Git url r mf pkg arts => rfl
    | Url url bn => rfl
    | GitHub gh =>
      cases gh with
      | SourceCodeArchive d => rfl
      | ReleaseArchive d => exact absurd rfl (hb name d cache)

/-- Witness for `version_latest_characterization` at a local binary. -/
theorem version_latest_characterization_witness :
    Binary.latest (.Local [] [] none) = none :=
  version_latest_characterization.2.2.2.2.2.2.2 (.Local [] [] none)
    (fun _ _ _ h => Binary.noConfusion h)

/-- C9: `use_latest()` modifies at most the `tag` field of a
ReleaseArchive descriptor — erasing that one field makes before and
after agree on every binary — and leaves every `Local` binary entirely
unchanged. -/
theorem use_latest_frame :
    (∀ b : Binary, clearReleaseTag b.use_latest = clearReleaseTag b) ∧
    (∀ name p m, Binary.use_latest (.Local name p m) = .Local name p m) := by
  constructor
  · intro b
    cases b with
    | Local name p m => rfl
    | Source name src cache =>
      cases src with
      | Archive url contents => rfl
      | Git url r mf pkg arts => rfl
      | Url url bn => rfl
      | GitHub gh =>
        cases gh with
        | SourceCodeArchive d => rfl
        | ReleaseArchive d =>
          cases hl : d.latest with
          | none => simp [Binary.use_latest, hl]
          | some l => simp [Binary.use_latest, hl, clearReleaseTag]
  · intro name p m
    rfl

/-- C6: a `Local` binary without a manifest always sources to a
`MissingBinary` error whose message names the expected path and states
the binary cannot be sourced automatically, leaving the filesystem state
untouched — for every collaborator implementation, every
release/status/verbose argument and every filesystem state. -/
theorem source_local_without_manifest {σ St : Type}
    (from_local_package : Str → Str → Bool → St → Bool → σ → Except Error Unit × σ)
    (source_source : OriginDescriptor → Str → Bool → St → Bool → σ → Except Error Unit × σ)
    (name path : Str) (release verbose : Bool) (status : St) (fs : σ) :
    Binary.source from_local_package source_source (.Local name path none)
        release status verbose fs
      = (.error (.MissingBinary (missingBinaryMessage path)), fs) := rfl

/-- C5: `use_latest()` is a no-op on every binary whose `latest` is
absent (every kind other than a sourced ReleaseArchive with `latest`
present); on a ReleaseArchive with `latest` present it overwrites `tag`
with `latest`; it is idempotent; and for tag `v1.0.0` with latest
`v2.0.0` the binary is stale before the call, reports version `v2.0.0`
after it, and is no longer stale. -/
theorem use_latest_characterization :
    (∀ b : Binary, b.latest = none → b.use_latest = b) ∧
    (∀ name d cache l, d.latest = some l →
      Binary.use_latest (.Source name (.GitHub (.ReleaseArchive d)) cache)
        = .Source name (.GitHub (.ReleaseArchive { d with tag := some l })) cache) ∧
    (∀ b : Binary, b.use_latest.use_latest = b.use_latest) ∧
    (∀ name owner repo tf ar cts cache,
      (Binary.Source name (.GitHub (.ReleaseArchive
          ⟨owner, repo, some (Str.ofString "v1.0.0"), tf, ar, cts,
            some (Str.ofString "v2.0.0")⟩)) cache).stale = true ∧
      (Binary.Source name (.GitHub (.ReleaseArchive
          ⟨owner, repo, some (Str.ofString "v1.0.0"), tf, ar, cts,
            some (Str.ofString "v2.0.0")⟩)) cache).use_latest.version
        = some (Str.ofString "v2.0.0") ∧
      (Binary.Source name (.GitHub (.ReleaseArchive
          ⟨owner, repo, some (Str.ofString "v1.0.0"), tf, ar, cts,
            some (Str.ofString "v2.0.0")⟩)) cache).use_latest.stale = false) := by
  refine ⟨?_, ?_, ?_, ?_⟩
  · intro b hb
    cases b with
    | Local name p m => rfl
    | Source name src cache =>
      cases src with
      | Archive url contents => rfl
      | Git url r mf pkg arts => rfl
      | Url url bn => rfl
      | GitHub gh =>
        cases gh with
        | SourceCodeArchive d => rfl
        | ReleaseArchive d =>
          have hl : d.latest = none := hb
          simp [Binary.use_latest, hl]
  · intro name d cache l hl
    simp [Binary.use_latest, hl]
  · intro b
    cases b with
    | Local name p m => rfl
    | Source name src cache =>
      cases src with
      | Archive url contents => rfl
      | Git url r mf pkg arts => rfl
      | Url url bn => rfl
      | GitHub gh =>
        cases gh with
        | SourceCodeArchive d => rfl
        | ReleaseArchive d =>
          cases hl : d.latest with
          | none => simp [Binary.use_latest, hl]
          | some l => simp [Binary.use_latest, hl]
  · intro name owner repo tf ar cts cache
    exact ⟨rfl, rfl, rfl⟩

/-- Witness for `use_latest_characterization`: a concrete no-op call and
a concrete overwrite. -/
theorem use_latest_characterization_witness :
    Binary.use_latest (.Local [] [] none) = .Local [] [] none :=
  use_latest_characterization.1 (.Local [] [] none) rfl

/-- C2 counterexample: a sourced ReleaseArchive with `latest` present
and `tag` absent is stale — the code treats an absent tag as differing
from `latest`, so "staleness requires both to be present" fails on the
code (and the test `sourced_from_github_release_archive_works` asserts
precisely `stale() == latest.is_some()` in this configuration). -/
theorem stale_with_tag_absent :
    (Binary.Source (Str.ofString "polkadot")
      (.GitHub (.ReleaseArchive ⟨Str.ofString "r0gue-io", Str.ofString "polkadot",
        none, none, Str.ofString "polkadot.tar.gz", [],
        some (Str.ofString "v2.0.0")⟩))
      (Str.ofString "cache")).stale = true := by decide

/-- C2 (amended): `stale()` is true exactly for a sourced GitHub
ReleaseArchive whose `latest` is present and whose `tag` differs from it
— an absent tag also counts as differing; in particular `stale()` is
false whenever `latest` is absent. -/
theorem stale_characterization :
    (∀ b : Binary, b.stale = true ↔
      ∃ name d cache l,
        b = Binary.Source name (.GitHub (.ReleaseArchive d)) cache ∧
        d.latest = some l ∧ d.tag ≠ some l) ∧
    (∀ b : Binary, b.latest = none → b.stale = false) := by
  constructor
  · intro b
    constructor
    · intro h
      cases b with
      | Local name p m => exact absurd h (by simp [Binary.stale])
      | Source name src cache =>
        cases src with
        | Archive url contents => exact absurd h (by simp [Binary.stale])
        | Git url r mf pkg arts => exact absurd h (by simp [Binary.stale])
        | Url url bn => exact absurd h (by simp [Binary.stale])
        | GitHub gh =>
          cases gh with
          | SourceCodeArchive d => exact absurd h (by simp [Binary.stale])
          | ReleaseArchive d =>
            cases hl : d.latest with
            | none =>
              rw [show Binary.stale (.Source name (.GitHub (.ReleaseArchive d)) cache)
                  = match d.latest with
                    | none => false
                    | some l => decide (d.tag ≠ some l) from rfl, hl] at h
              exact Bool.noConfusion h
            | some l =>
              rw [show Binary.stale (.Source name (.GitHub (.ReleaseArchive d)) cache)
                  = match d.latest with
                    | none => false
                    | some l => decide (d.tag ≠ some l) from rfl, hl] at h
              exact ⟨name, d, cache, l, rfl, hl, of_decide_eq_true h⟩
    · rintro ⟨name, d, cache, l, rfl, hlat, hneq⟩
      rw [show Binary.stale (.Source name (.GitHub (.ReleaseArchive d)) cache)
          = match d.latest with
            | none => false
            | some l => decide (d.tag ≠ some l) from rfl, hlat]
      exact decide_eq_true hneq
  · intro b hb
    cases b with
    | Local name p m => rfl
    | Source name src cache =>
      cases src with
      | Archive url contents => rfl
      | Git url r mf pkg arts => rfl
      | Url url bn => rfl
      | GitHub gh =>
        cases gh with
        | SourceCodeArchive d => rfl
        | ReleaseArchive d =>
          have hl : d.latest = none := hb
          rw [show Binary.stale (.Source name (.GitHub (.ReleaseArchive d)) cache)
              = match d.latest with
                | none => false
                | some l => decide (d.tag ≠ some l) from rfl, hl]

/-- Witness for `stale_characterization`: a local binary has no latest
and is not stale. -/
theorem stale_characterization_witness :
    Binary.stale (.Local [] [] none) = false :=
  stale_characterization.2 (.Local [] [] none) rfl

/-- C3: the two-family parse — a `v`-prefixed string takes its first
two dot-separated numeric segments as `(major, minor)`; a
`polkadot-stable` string followed by an integer `N` yields
`(N / 100, N % 100)`; comparison is by major then minor, a present
major beats an absent one, two absent majors fall back to lexicographic
string comparison, cross-family comparisons use the raw derived majors;
and the three concrete examples from the specification hold. -/
theorem compare_versions_families :
    (∀ s : Str, parse_version ('v' :: s) =
      (((splitOnDot s).get? 0).bind parseU32, ((splitOnDot s).get? 1).bind parseU32)) ∧
    (∀ r n, parseU32 r = some n →
      parse_version (polkadotStable ++ r) = (some (n / 100), some (n % 100))) ∧
    (∀ a b x y, (parse_version a).1 = some x → (parse_version b).1 = some y → x ≠ y →
      compare_versions a b = compare x y) ∧
    (∀ a b x, (parse_version a).1 = some x → (parse_version b).1 = some x →
      compare_versions a b = optCmp (parse_version a).2 (parse_version b).2) ∧
    (∀ a b x, (parse_version a).1 = some x → (parse_version b).1 = none →
      compare_versions a b = .gt) ∧
    (∀ a b, (parse_version a).1 = none → (parse_version b).1 = none →
      compare_versions a b = strCmp a b) ∧
    compare_versions (Str.ofString "v1.13.0") (Str.ofString "v1.12.0") = .gt ∧
    compare_versions (Str.ofString "polkadot-stable2409")
      (Str.ofString "polkadot-stable2407") = .gt ∧
    compare_versions (Str.ofString "v1.13.0") (Str.ofString "v1.13.0") = .eq := by
  refine ⟨?_, ?_, ?_, ?_, ?_, ?_, by decide, by decide, by decide⟩
  · intro s
    have h1 : (['v'].isPrefixOf ('v' :: s)) = true := by simp [List.isPrefixOf]
    unfold parse_version
    rw [if_pos h1]
    rfl
  · intro r n h
    have h1 : (['v'].isPrefixOf (polkadotStable ++ r)) = false := rfl
    have h2 : (polkadotStable.isPrefixOf (polkadotStable ++ r)) = true := by
      rw [List.isPrefixOf_iff_prefix]
      exact List.prefix_append _ _
    unfold parse_version
    rw [if_neg (by rw [h1]; exact Bool.false_ne_true), if_pos h2, List.drop_left, h]
  · intro a b x y ha hb hxy
    unfold compare_versions
    rw [ha, hb]
    exact if_pos hxy
  · intro a b x ha hb
    unfold compare_versions
    rw [ha, hb]
    exact if_neg (fun h => h rfl)
  · intro a b x ha hb
    unfold compare_versions
    rw [ha, hb]
  · intro a b ha hb
    unfold compare_versions
    rw [ha, hb]

/-- Witness for `compare_versions_families`: the calendar parse at the
concrete remainder `2409`. -/
theorem compare_versions_families_witness :
    parse_version (polkadotStable ++ ['2', '4', '0', '9']) = (some 24, some 9) :=
  compare_versions_families.2.1 ['2', '4', '0', '9'] 2409 (by decide)

/-- C10: `compare_versions` ignores every dot-separated segment beyond
the second in semantic-style tags — for numeric `a` and `b`, the tags
`v{a}.{b}.{x}` and `v{a}.{b}.{y}` compare Equal for all `x` and `y`; in
particular distinct patch releases such as `v1.2.3` and `v1.2.9` are
indistinguishable. -/
theorem compare_versions_ignores_patch :
    (∀ a b x y : Str, (parseU32 a).isSome = true → (parseU32 b).isSome = true →
      compare_versions ('v' :: (a ++ '.' :: (b ++ '.' :: x)))
        ('v' :: (a ++ '.' :: (b ++ '.' :: y))) = .eq) ∧
    compare_versions (Str.ofString "v1.2.3") (Str.ofString "v1.2.9") = .eq := by
  constructor
  · intro a b x y ha hb
    obtain ⟨na, hna⟩ := Option.isSome_iff_exists.mp ha
    obtain ⟨nb, hnb⟩ := Option.isSome_iff_exists.mp hb
    have hda : '.' ∉ a := parseU32_no_dot hna
    have hdb : '.' ∉ b := parseU32_no_dot hnb
    unfold compare_versions
    rw [parse_version_vab a b x hda hdb, parse_version_vab a b y hda hdb, hna, hnb]
    show (if na ≠ na then compare na na else optCmp (some nb) (some nb)) = .eq
    rw [if_neg (fun h => h rfl)]
    exact Nat.compare_eq_eq.mpr rfl
  · decide

/-- Witness for `compare_versions_ignores_patch` at concrete segments. -/
theorem compare_versions_ignores_patch_witness :
    compare_versions ('v' :: (['1'] ++ '.' :: (['2'] ++ '.' :: ['3'])))
      ('v' :: (['1'] ++ '.' :: (['2'] ++ '.' :: ['9', '9']))) = .eq :=
  compare_versions_ignores_patch.1 ['1'] ['2'] ['3'] ['9', '9'] (by decide) (by decide)

/-- C7 counterexample: `compare_versions` answers Equal on two distinct
strings (`v1.2.3` and `v1.2.4`), so Equal does not imply string
identity and the relation is not a total order up to identity. -/
theorem compare_versions_eq_distinct :
    compare_versions (Str.ofString "v1.2.3") (Str.ofString "v1.2.4") = .eq ∧
    Str.ofString "v1.2.3" ≠ Str.ofString "v1.2.4" := by
  constructor
  · decide
  · decide

/-- C7 (amended): `compare_versions` is a total preorder — reflexive
(Equal on identical strings), antisymmetric in the sense that swapping
the arguments reverses the answer, and transitive in the
not-Less/greater-or-equal sense — but Equal does not imply the strings
are identical. -/
theorem compare_versions_total_preorder :
    (∀ a : Str, compare_versions a a = .eq) ∧
    (∀ a b : Str, compare_versions a b = (compare_versions b a).swap) ∧
    (∀ a b c : Str, compare_versions a b ≠ .lt → compare_versions b c ≠ .lt →
      compare_versions a c ≠ .lt) :=
  ⟨compare_versions_refl, compare_versions_swap,
    fun _ _ _ h1 h2 => compare_versions_ge_trans h1 h2⟩

/-- Witness for `compare_versions_total_preorder`: transitivity at three
concrete tags. -/
theorem compare_versions_total_preorder_witness :
    compare_versions (Str.ofString "v1.13.0") (Str.ofString "v1.11.0") ≠ .lt :=
  compare_versions_total_preorder.2.2 (Str.ofString "v1.13.0")
    (Str.ofString "v1.12.0") (Str.ofString "v1.11.0") (by decide) (by decide)

/-- C1: `resolve_version` implements exactly the specified policy — an
explicitly specified version is returned verbatim for every available
list and every cache state; with no specified version and an empty
available list the result is absent; otherwise the result is a member
of the available list which is either a cached entry that no other
cached entry outranks under `compare_versions` (the first cached entry
of the descending sort), or, when no entry is cached, an entry that no
entry outranks (the head of the descending sort). -/
theorem resolve_version_policy :
    (∀ name v available cache disk,
      resolve_version name (some v) available cache disk = some v) ∧
    (∀ name cache disk, resolve_version name none [] cache disk = none) ∧
    (∀ name available cache disk, available ≠ [] →
      ∃ r, resolve_version name none available cache disk = some r ∧ r ∈ available ∧
        ((disk (pathJoin cache (name ++ '-' :: r)) = true ∧
          ∀ v ∈ available, disk (pathJoin cache (name ++ '-' :: v)) = true →
            compare_versions r v ≠ .lt) ∨
         ((∀ v ∈ available, disk (pathJoin cache (name ++ '-' :: v)) = false) ∧
          ∀ v ∈ available, compare_versions r v ≠ .lt))) := by
  refine ⟨fun _ _ _ _ _ => rfl, ?_, ?_⟩
  · intro name cache disk
    simp [resolve_version]
  · intro name available cache disk hne
    have hpair := List.sorted_mergeSort versionLe_trans versionLe_total available
    have hperm := List.mergeSort_perm available versionLe
    unfold resolve_version
    rcases hfind : (available.mergeSort versionLe).find?
        (fun version => disk (pathJoin cache (name ++ '-' :: version))) with _ | r
    · rcases hs : available.mergeSort versionLe with _ | ⟨r, t⟩
      · exfalso
        apply hne
        have hlen := congrArg List.length hs
        rw [List.length_mergeSort] at hlen
        exact List.length_eq_zero.mp hlen
      · rw [hs] at hpair hperm hfind
        refine ⟨r, rfl, hperm.mem_iff.mp (List.mem_cons_self r t), Or.inr ⟨?_, ?_⟩⟩
        · intro v hv
          have hv2 : v ∈ r :: t := hperm.mem_iff.mpr hv
          have hnp := List.find?_eq_none.mp hfind v hv2
          exact Bool.eq_false_iff.mpr hnp
        · intro v hv
          have hv2 : v ∈ r :: t := hperm.mem_iff.mpr hv
          rcases List.mem_cons.mp hv2 with rfl | hv3
          · rw [compare_versions_refl]
            decide
          · exact versionLe_iff.mp ((List.pairwise_cons.mp hpair).1 v hv3)
    · have hmemS : r ∈ available.mergeSort versionLe := List.mem_of_find?_eq_some hfind
      have hpr := List.find?_some hfind
      refine ⟨r, rfl, hperm.mem_iff.mp hmemS, Or.inl ⟨hpr, ?_⟩⟩
      intro v hv hdv
      have hv2 : v ∈ available.mergeSort versionLe := hperm.mem_iff.mpr hv
      rcases find?_pairwise_min hpair hfind v hv2 hdv with rfl | hle
      · rw [compare_versions_refl]
        decide
      · exact versionLe_iff.mp hle

/-- Witness for `resolve_version_policy` on a concrete one-element
available list with nothing cached. -/
theorem resolve_version_policy_witness :
    ∃ r, resolve_version (Str.ofString "polkadot") none [Str.ofString "v1.0.0"]
        (Str.ofString "cache") (fun _ => false) = some r ∧
      r ∈ [Str.ofString "v1.0.0"] ∧
      (((fun _ => false : Str → Bool) (pathJoin (Str.ofString "cache")
          (Str.ofString "polkadot" ++ '-' :: r)) = true ∧
        ∀ v ∈ [Str.ofString "v1.0.0"],
          (fun _ => false : Str → Bool) (pathJoin (Str.ofString "cache")
            (Str.ofString "polkadot" ++ '-' :: v)) = true →
          compare_versions r v ≠ .lt) ∨
       ((∀ v ∈ [Str.ofString "v1.0.0"],
          (fun _ => false : Str → Bool) (pathJoin (Str.ofString "cache")
            (Str.ofString "polkadot" ++ '-' :: v)) = false) ∧
        ∀ v ∈ [Str.ofString "v1.0.0"], compare_versions r v ≠ .lt)) :=
  resolve_version_policy.2.2 (Str.ofString "polkadot") [Str.ofString "v1.0.0"]
    (Str.ofString "cache") (fun _ => false) (by simp)
